import Mathlib

/-!
Verification of the Scraper_URL lead-scraping pipeline.

This file gives a shallow embedding of the data-processing core of the
repository (text normalization, record cleaning and validation, URL
handling, e-mail extraction, the cache layer and lead scoring) and proves
or refutes the specified properties about it.

Modelling conventions:
* Python strings are Lean `String` / `List Char`; regex character classes
  are modelled at the ASCII level (the repository only processes ASCII
  configuration constants and web text through ASCII-centric regexes).
* Python dictionaries are association lists `List (String × PyVal)`;
  lookup takes the first binding, mirroring the unique-key discipline of
  Python dicts.
* Heterogeneous Python values are the inductive type `PyVal`, with Python
  truthiness as `truthy`.
* Code that can raise is embedded with `Option` (`none` = exception).
* Behaviour of the third-party helpers used by the code (BeautifulSoup
  tag stripping, `validators.url`, `tldextract`, `urllib.parse`) is
  modelled by executable Lean functions that follow the documented
  behaviour of those libraries on the inputs exercised here; each such
  model carries a doc comment saying what it abstracts.
-/

/-! ## Character classes (ASCII models of the regex classes used) -/

/-- Model of the regex class `\w` (ASCII: letters, digits, underscore). -/
def isWordChar (c : Char) : Bool :=
  c.isAlphanum || c = '_'

/-- Model of the regex class `\s` (the six ASCII whitespace characters
Python treats as whitespace). -/
def isSpaceChar (c : Char) : Bool :=
  c = ' ' || c = '\t' || c = '\n' || c = '\r' || c = '\x0b' || c = '\x0c'

/-- Characters kept by `clean_text`: the regex `[^\w\s@.,-]` removes
everything else. -/
def isAllowedChar (c : Char) : Bool :=
  isWordChar c || isSpaceChar c || c = '@' || c = '.' || c = ',' || c = '-'

/-- Membership in the strip set of `text.strip('.,- ')`. -/
def isStripChar (c : Char) : Bool :=
  c = '.' || c = ',' || c = '-' || c = ' '

/-! ## TextCleaner.clean_text (src/app/scraper/utils.py, lines 34-61) -/

/-- Model of `TextCleaner.is_probably_url`: the anchored regex
`https?://\S+` matched at the start of the text. -/
def is_probably_url (l : List Char) : Bool :=
  match l with
  | 'h' :: 't' :: 't' :: 'p' :: rest =>
    match rest with
    | 's' :: ':' :: '/' :: '/' :: c :: _ => !isSpaceChar c
    | ':' :: '/' :: '/' :: c :: _ => !isSpaceChar c
    | _ => false
  | _ => false

/-- Model of `BeautifulSoup(text, "html.parser").get_text()`: drops
everything between `<` and the next `>` (a state-machine tag stripper;
the Boolean argument is the inside-a-tag state).  This models the
third-party HTML-stripping step of `clean_text` for plain text and
simple markup; `clean_text` only reaches it on non-URL input. -/
def stripTags : List Char → Bool → List Char
  | [], _ => []
  | c :: cs, true => if c = '>' then stripTags cs false else stripTags cs true
  | c :: cs, false => if c = '<' then stripTags cs true else c :: stripTags cs false

/-- Helper of `pyWords`: `acc` is the word currently being read. -/
def pyWordsAux : List Char → List Char → List (List Char)
  | [], acc => if acc.isEmpty then [] else [acc]
  | c :: cs, acc =>
    if isSpaceChar c then
      if acc.isEmpty then pyWordsAux cs [] else acc :: pyWordsAux cs []
    else pyWordsAux cs (acc ++ [c])

/-- Model of Python `text.split()`: split on whitespace runs, dropping
empty pieces. -/
def pyWords (l : List Char) : List (List Char) :=
  pyWordsAux l []

/-- Model of `" ".join(words)`. -/
def joinSp : List (List Char) → List Char
  | [] => []
  | [w] => w
  | w :: x :: ws => w ++ ' ' :: joinSp (x :: ws)

/-- Model of `re.sub(p{2,}, p, text)` for a single character `p`:
collapse runs of two or more copies of `p` to a single copy. -/
def collapseRuns (p : Char) : List Char → List Char
  | [] => []
  | [c] => [c]
  | c :: d :: cs =>
    if c = p ∧ d = p then collapseRuns p (d :: cs)
    else c :: collapseRuns p (d :: cs)

/-- Model of `text.strip(".,- ")`. -/
def pyStrip (l : List Char) : List Char :=
  ((l.dropWhile isStripChar).reverse.dropWhile isStripChar).reverse

/-- The `clean_text` pipeline on character lists: strip HTML unless the
text looks like a URL, normalize whitespace, remove characters outside
`[\w\s@.,-]`, collapse repeated `.`, `,`, `-`, and strip `.,- ` from both
ends. -/
def cleanTextL (l : List Char) : List Char :=
  let l1 := if is_probably_url l then l else stripTags l false
  let l2 := joinSp (pyWords l1)
  let l3 := l2.filter isAllowedChar
  let l4 := collapseRuns '-' (collapseRuns ',' (collapseRuns '.' l3))
  pyStrip l4

/-- `TextCleaner.clean_text`: empty input returns the empty string,
anything else goes through the pipeline. -/
def clean_text (s : String) : String :=
  if s.data.isEmpty then "" else ⟨cleanTextL s.data⟩

theorem clean_text_eq_mk (s : String) : clean_text s = ⟨cleanTextL s.data⟩ := by
  unfold clean_text
  split
  · next h =>
    cases s with
    | mk d => cases d with
      | nil => rfl
      | cons c cs => simp [List.isEmpty] at h
  · rfl

example : clean_text "  Test   String  " = "Test String" := by decide

example : clean_text "" = "" := by decide

example : clean_text "a ! b" = "a  b" := by decide

/-! ## Python values, truthiness and clean_data
(src/app/scraper/base_scraper.py, lines 241-255) -/

/-- Heterogeneous Python values as they occur in scraped records. -/
inductive PyVal where
  | str : String → PyVal
  | int : Int → PyVal
  | bool : Bool → PyVal
  | none : PyVal
  | list : List PyVal → PyVal
  | dict : List (String × PyVal) → PyVal

/-- Python truthiness of a `PyVal`. -/
def truthy : PyVal → Bool
  | .str s => !s.data.isEmpty
  | .int n => n ≠ 0
  | .bool b => b
  | .none => false
  | .list l => !l.isEmpty
  | .dict d => !d.isEmpty

/-- The apostrophe character, used by Python `repr` of strings. -/
def sQuote : Char := Char.ofNat 39

mutual

/-- Python `str()` of a value (`repr` for elements inside containers,
which is how `str` renders lists and dicts). Escaping inside string
`repr` is not modelled. -/
def pyStr : PyVal → String
  | .str s => s
  | .int n => toString n
  | .bool b => if b then "True" else "False"
  | .none => "None"
  | .list l => ⟨'[' :: (joinCommas (pyReprList l)) ++ [']']⟩
  | .dict d => ⟨Char.ofNat 123 :: (joinCommas (pyReprPairs d)) ++ [Char.ofNat 125]⟩

def pyRepr : PyVal → String
  | .str s => ⟨sQuote :: s.data ++ [sQuote]⟩
  | v => pyStr v

def pyReprList : List PyVal → List (List Char)
  | [] => []
  | v :: vs => (pyRepr v).data :: pyReprList vs

def pyReprPairs : List (String × PyVal) → List (List Char)
  | [] => []
  | (k, v) :: kvs =>
    (sQuote :: k.data ++ [sQuote] ++ (':' :: ' ' :: (pyRepr v).data)) :: pyReprPairs kvs

def joinCommas : List (List Char) → List Char
  | [] => []
  | [w] => w
  | w :: x :: ws => w ++ ',' :: ' ' :: joinCommas (x :: ws)

end

mutual

/-- Value-level dispatch of `BaseScraper.clean_data`: strings are cleaned
with `clean_text`; lists keep only the elements that are truthy *before*
cleaning and apply `clean_text(str(item))` to those; dicts recurse; other
values pass through. -/
def cleanValue : PyVal → PyVal
  | .str s => .str (clean_text s)
  | .list l => .list (cleanList l)
  | .dict d => .dict (clean_data d)
  | v => v

def cleanList : List PyVal → List PyVal
  | [] => []
  | v :: vs =>
    if truthy v then .str (clean_text (pyStr v)) :: cleanList vs
    else cleanList vs

/-- `BaseScraper.clean_data`: clean every value and keep a key only when
its cleaned value is truthy. -/
def clean_data : List (String × PyVal) → List (String × PyVal)
  | [] => []
  | (k, v) :: rest =>
    let cv := cleanValue v
    if truthy cv then (k, cv) :: clean_data rest else clean_data rest

end

example : clean_data [("k", .list [.str "!"])] = [("k", .list [.str ""])] := by
  have h : clean_text "!" = "" := by decide
  simp [clean_data, cleanValue, cleanList, truthy, pyStr, h]

example : clean_data [("employees", .int 0)] = [] := by
  simp [clean_data, cleanValue, truthy]

/-! ## Dict lookup -/

/-- First binding for a key in an association list (Python dict lookup). -/
def lookupKey (d : List (String × PyVal)) (k : String) : Option PyVal :=
  match d with
  | [] => Option.none
  | (k2, v) :: rest => if k2 = k then some v else lookupKey rest k

/-- Python `data.get(k)`: `None` when the key is absent. -/
def pyGet (d : List (String × PyVal)) (k : String) : PyVal :=
  (lookupKey d k).getD .none

/-- Python `data.get(k, dflt)`. -/
def pyGetD (d : List (String × PyVal)) (k : String) (dflt : PyVal) : PyVal :=
  (lookupKey d k).getD dflt

/-! ## BaseScraper validation helpers
(src/app/scraper/base_scraper.py, lines 192-239) -/

/-- Class `[a-zA-Z0-9._%+-]` (local part of the validation regex). -/
def isEmailLocalChar (c : Char) : Bool :=
  c.isAlphanum || c = '.' || c = '_' || c = '%' || c = '+' || c = '-'

/-- Class `[a-zA-Z0-9.-]` (domain part of the validation regex). -/
def isEmailDomChar (c : Char) : Bool :=
  c.isAlphanum || c = '.' || c = '-'

/-- Does `rest` (the text after the `@`) match `[a-zA-Z0-9.-]+\.[a-zA-Z]{2,}$`?
A match must end in a maximal all-letter suffix of length at least two,
preceded by a dot, preceded by at least one domain character. -/
def emailDomTailOk (rest : List Char) : Bool :=
  let k := (rest.reverse.takeWhile (fun c => c.isAlpha)).length
  let pre := rest.take (rest.length - k)
  decide (2 ≤ k) && pre.getLast? = some '.' && decide (2 ≤ pre.length) &&
    pre.all isEmailDomChar

/-- The anchored regex `^[a-zA-Z0-9._%+-]+@[a-zA-Z0-9.-]+\.[a-zA-Z]{2,}$`
used by `BaseScraper._validate_email_format`. -/
def emailFormatRegex (l : List Char) : Bool :=
  let a := l.takeWhile isEmailLocalChar
  match l.drop a.length with
  | '@' :: rest => !a.isEmpty && emailDomTailOk rest
  | _ => false

/-- Lower-casing of a character, ASCII model of Python `str.lower()`. -/
def lowerChar (c : Char) : Bool × Char :=
  if 65 ≤ c.toNat ∧ c.toNat ≤ 90 then (true, Char.ofNat (c.toNat + 32)) else (false, c)

/-- ASCII model of Python `str.lower()` on character lists. -/
def pyLower (l : List Char) : List Char :=
  l.map (fun c => (lowerChar c).2)

/-- ASCII model of Python `str.lower()`. -/
def strLower (s : String) : String :=
  ⟨pyLower s.data⟩

/-- The part of an e-mail after the first `@` (`email.split("@")[1]`). -/
def afterFirstAt (l : List Char) : List Char :=
  ((l.dropWhile (fun c => !(c = '@'))).drop 1).takeWhile (fun c => !(c = '@'))

/-- `BaseScraper._validate_email_format`: the anchored regex above plus a
blocklist on the lower-cased domain. -/
def validate_email_format (email : String) : Bool :=
  emailFormatRegex email.data &&
    !(["example.com", "test.com", "localhost"].contains
      ⟨pyLower (afterFirstAt email.data)⟩)

/-- `BaseScraper._validate_phone_format`: strip non-digits (`\D`) and
require 10 to 15 digits. -/
def validate_phone_format (phone : String) : Bool :=
  let digits := phone.data.filter (fun c => c.isDigit)
  decide (10 ≤ digits.length) && decide (digits.length ≤ 15)

example : validate_email_format "a@acme.io" = true := by decide

example : validate_email_format "" = false := by decide

example : validate_email_format "a@example.com" = false := by decide

example : validate_email_format "a@b" = false := by decide

/-! ## urllib.parse model (urlparse / urlunparse / quoting / parse_qs)

These definitions model the behaviour of the Python standard library
`urllib.parse` helpers used by `URLHandler` (src/app/scraper/utils.py). -/

/-- Characters allowed in a URL scheme (letters, digits, `+`, `-`, `.`). -/
def isSchemeChar (c : Char) : Bool :=
  c.isAlphanum || c = '+' || c = '-' || c = '.'

/-- The six components produced by `urlparse`. -/
structure UrlParts where
  scheme : String
  netloc : String
  path : String
  params : String
  query : String
  fragment : String
deriving DecidableEq

/-- Index of the start of the last `/` of `p` (0 when there is none);
`_splitparams` searches for `;` from there. -/
def lastSlashStart (p : List Char) : Nat :=
  match p.reverse.findIdx? (fun c => c = '/') with
  | some k => p.length - 1 - k
  | _ => 0

/-- Model of `urllib.parse._splitparams`: split the `;params` suffix of
the last path segment. -/
def splitPathParams (p : List Char) : List Char × List Char :=
  let s := lastSlashStart p
  match (p.drop s).findIdx? (fun c => c = ';') with
  | some j => (p.take (s + j), p.drop (s + j + 1))
  | _ => (p, [])

/-- Model of `urllib.parse.urlparse`: split scheme (when the prefix
before the first `:` starts with a letter and uses only scheme
characters), then `//netloc` up to `/`, `?` or `#`, then the fragment at
the first `#`, the query at the first `?`, and path parameters at the
`;` of the last segment. -/
def urlparse (url : String) : UrlParts :=
  let l := url.data
  let sr : List Char × List Char :=
    match l.findIdx? (fun c => c = ':') with
    | some i =>
      if decide (0 < i) && (l.take i).all isSchemeChar &&
          (match l.head? with | some c => c.isAlpha | _ => false) then
        (pyLower (l.take i), l.drop (i + 1))
      else ([], l)
    | _ => ([], l)
  let nr : List Char × List Char :=
    match sr.2 with
    | '/' :: '/' :: r =>
      (r.takeWhile (fun c => !(c = '/' || c = '?' || c = '#')),
       r.dropWhile (fun c => !(c = '/' || c = '?' || c = '#')))
    | r => ([], r)
  let frag := (nr.2.dropWhile (fun c => !(c = '#'))).drop 1
  let rest3 := nr.2.takeWhile (fun c => !(c = '#'))
  let query := (rest3.dropWhile (fun c => !(c = '?'))).drop 1
  let path0 := rest3.takeWhile (fun c => !(c = '?'))
  let pp := splitPathParams path0
  ⟨⟨sr.1⟩, ⟨nr.1⟩, ⟨pp.1⟩, ⟨pp.2⟩, ⟨query⟩, ⟨frag⟩⟩

/-- Model of `urllib.parse.urlunparse`. -/
def urlunparse (u : UrlParts) : String :=
  let url0 := u.path.data ++ (if u.params.data.isEmpty then [] else ';' :: u.params.data)
  let url1 :=
    if !u.netloc.data.isEmpty || url0.take 2 = ['/', '/'] then
      '/' :: '/' :: u.netloc.data ++
        (if !url0.isEmpty && !(url0.head? = some '/') then '/' :: url0 else url0)
    else url0
  let url2 := if u.scheme.data.isEmpty then url1 else u.scheme.data ++ ':' :: url1
  let url3 := if u.query.data.isEmpty then url2 else url2 ++ '?' :: u.query.data
  ⟨if u.fragment.data.isEmpty then url3 else url3 ++ '#' :: u.fragment.data⟩

example : urlparse "https://x.com/?a=" =
    ⟨"https", "x.com", "/", "", "a=", ""⟩ := by decide

example : urlunparse ⟨"https", "x.com", "/", "", "", ""⟩ = "https://x.com/" := by decide

/-- UTF-8 bytes of a character (bytes as natural numbers below 256). -/
def utf8Bytes (c : Char) : List Nat :=
  let n := c.toNat
  if n < 128 then [n]
  else if n < 2048 then [192 + n / 64, 128 + n % 64]
  else if n < 65536 then [224 + n / 4096, 128 + (n / 64) % 64, 128 + n % 64]
  else [240 + n / 262144, 128 + (n / 4096) % 64, 128 + (n / 64) % 64, 128 + n % 64]

/-- Upper-case hexadecimal digit of `n < 16`. -/
def hexDigitUpper (n : Nat) : Char :=
  if n < 10 then Char.ofNat (48 + n) else Char.ofNat (55 + n)

/-- Bytes `quote_plus` leaves unescaped: ASCII alphanumerics and
`_`, `.`, `-`, `~`. -/
def isUnreservedByte (b : Nat) : Bool :=
  (48 ≤ b ∧ b ≤ 57) || (65 ≤ b ∧ b ≤ 90) || (97 ≤ b ∧ b ≤ 122) ||
    b = 45 || b = 46 || b = 95 || b = 126

/-- Model of `urllib.parse.quote_plus`: UTF-8 encode, keep unreserved
bytes, turn spaces into `+`, and percent-encode the rest with upper-case
hex. -/
def quotePlus (s : String) : String :=
  ⟨((s.data.map utf8Bytes).flatten.map (fun b =>
      if b = 32 then ['+']
      else if isUnreservedByte b then [Char.ofNat b]
      else ['%', hexDigitUpper (b / 16), hexDigitUpper (b % 16)])).flatten⟩

/-- Value of a hexadecimal digit character. -/
def hexVal (c : Char) : Option Nat :=
  if '0' ≤ c ∧ c ≤ '9' then some (c.toNat - 48)
  else if 'a' ≤ c ∧ c ≤ 'f' then some (c.toNat - 87)
  else if 'A' ≤ c ∧ c ≤ 'F' then some (c.toNat - 55)
  else Option.none

/-- Byte stream of `unquote_plus` input: `+` becomes a space, a valid
`%XX` escape becomes the byte `XX`, everything else contributes its
UTF-8 bytes.  The first argument is recursion fuel (one unit per input
character suffices). -/
def uqBytesF : Nat → List Char → List Nat
  | 0, _ => []
  | _ + 1, [] => []
  | fuel + 1, c :: rest =>
    if c = '+' then 32 :: uqBytesF fuel rest
    else if c = '%' then
      match rest with
      | h1 :: h2 :: rest2 =>
        match hexVal h1, hexVal h2 with
        | some a, some b => (16 * a + b) :: uqBytesF fuel rest2
        | _, _ => 37 :: uqBytesF fuel rest
      | _ => 37 :: uqBytesF fuel rest
    else utf8Bytes c ++ uqBytesF fuel rest

/-- The U+FFFD replacement character used for undecodable bytes. -/
def replChar : Char := Char.ofNat 65533

/-- UTF-8 decoding of a byte stream (fuel-driven; overlong and surrogate
forms are not policed, matching the level of detail needed here). -/
def utf8DecodeF : Nat → List Nat → List Char
  | 0, _ => []
  | _ + 1, [] => []
  | fuel + 1, b :: rest =>
    if b < 128 then Char.ofNat b :: utf8DecodeF fuel rest
    else if 192 ≤ b ∧ b < 224 then
      match rest with
      | b2 :: rest2 =>
        if 128 ≤ b2 ∧ b2 < 192 then
          Char.ofNat ((b - 192) * 64 + (b2 - 128)) :: utf8DecodeF fuel rest2
        else replChar :: utf8DecodeF fuel rest
      | [] => [replChar]
    else if 224 ≤ b ∧ b < 240 then
      match rest with
      | b2 :: b3 :: rest2 =>
        if (128 ≤ b2 ∧ b2 < 192) ∧ (128 ≤ b3 ∧ b3 < 192) then
          Char.ofNat ((b - 224) * 4096 + (b2 - 128) * 64 + (b3 - 128)) ::
            utf8DecodeF fuel rest2
        else replChar :: utf8DecodeF fuel rest
      | _ => replChar :: utf8DecodeF fuel rest
    else if 240 ≤ b ∧ b < 248 then
      match rest with
      | b2 :: b3 :: b4 :: rest2 =>
        if (128 ≤ b2 ∧ b2 < 192) ∧ (128 ≤ b3 ∧ b3 < 192) ∧ (128 ≤ b4 ∧ b4 < 192) then
          Char.ofNat ((b - 240) * 262144 + (b2 - 128) * 4096 + (b3 - 128) * 64 +
            (b4 - 128)) :: utf8DecodeF fuel rest2
        else replChar :: utf8DecodeF fuel rest
      | _ => replChar :: utf8DecodeF fuel rest
    else replChar :: utf8DecodeF fuel rest

/-- Model of `urllib.parse.unquote_plus` (undecodable bytes become
U+FFFD, modelling `errors="replace"`). -/
def unquotePlus (s : String) : String :=
  let bs := uqBytesF s.data.length s.data
  ⟨utf8DecodeF bs.length bs⟩

example : unquotePlus "a+b%20c" = "a b c" := by decide

example : quotePlus "a b/c" = "a+b%2Fc" := by decide

/-- Split a list on a separator character, keeping empty pieces. -/
def splitOnCharAux (sep : Char) : List Char → List Char → List (List Char)
  | [], acc => [acc]
  | c :: cs, acc =>
    if c = sep then acc :: splitOnCharAux sep cs []
    else splitOnCharAux sep cs (acc ++ [c])

/-- Split a list on a separator character, keeping empty pieces. -/
def splitOnChar (sep : Char) (l : List Char) : List (List Char) :=
  splitOnCharAux sep l []

/-- Model of `urllib.parse.parse_qsl` with default arguments: split the
query on `&`, skip empty fields, fields without `=` and fields with an
empty value, and unquote names and values. -/
def parseQsl (q : List Char) : List (String × String) :=
  (splitOnChar '&' q).foldr (fun f acc =>
    if f.isEmpty then acc
    else
      let k := f.takeWhile (fun c => !(c = '='))
      let rest := f.dropWhile (fun c => !(c = '='))
      match rest with
      | [] => acc
      | _ :: v => if v.isEmpty then acc else (unquotePlus ⟨k⟩, unquotePlus ⟨v⟩) :: acc)
    []

/-- Append a value to the entry of `k` (or add a new entry at the end),
modelling insertion into a Python dict of lists. -/
def addParam : List (String × List String) → String → String → List (String × List String)
  | [], k, v => [(k, [v])]
  | (k2, vs) :: rest, k, v =>
    if k2 = k then (k2, vs ++ [v]) :: rest else (k2, vs) :: addParam rest k v

/-- Model of `urllib.parse.parse_qs`: group `parse_qsl` pairs by key,
keys in first-appearance order, values in order of appearance. -/
def parse_qs (q : String) : List (String × List String) :=
  (parseQsl q.data).foldl (fun acc kv => addParam acc kv.1 kv.2) []

/-- `&`-join of encoded `key=value` pieces. -/
def joinAmp : List (List Char) → List Char
  | [] => []
  | [w] => w
  | w :: x :: ws => w ++ '&' :: joinAmp (x :: ws)

/-- Model of `urllib.parse.urlencode(params, doseq=True)` on a dict of
lists of strings. -/
def urlencodeDoseq (l : List (String × List String)) : String :=
  ⟨joinAmp ((l.map (fun kv =>
      kv.2.map (fun v => (quotePlus kv.1).data ++ '=' :: (quotePlus v).data))).flatten)⟩

example : parse_qs "a=1&b=2" = [("a", ["1"]), ("b", ["2"])] := by decide

example : parse_qs "a=" = [] := by decide

example : urlencodeDoseq [("a", ["1"]), ("b", ["2"])] = "a=1&b=2" := by decide

/-! ## URLHandler (src/app/scraper/utils.py, lines 227-316) -/

/-- The tracking-parameter vocabulary of `remove_tracking_params`. -/
def tracking_params : List String :=
  ["utm_source", "utm_medium", "utm_campaign", "utm_term", "utm_content",
   "fbclid", "gclid", "ref", "source", "medium"]

/-- Python substring containment `t in l`. -/
def listHasInfix (t : List Char) : List Char → Bool
  | [] => t.isEmpty
  | c :: rest => t.isPrefixOf (c :: rest) || listHasInfix t rest

/-- Is any tracking word contained in the lower-cased key? -/
def isTrackingKey (k : String) : Bool :=
  tracking_params.any (fun t => listHasInfix t.data (pyLower k.data))

/-- `URLHandler.remove_tracking_params`: when the URL has a query, parse
it, drop parameters whose lower-cased key contains a tracking word, and
rebuild the URL from the original components with the re-encoded query;
otherwise return the URL unchanged. -/
def remove_tracking_params (url : String) : String :=
  let p := urlparse url
  if p.query.data.isEmpty then url
  else
    let params := parse_qs p.query
    let clean := params.filter (fun kv => !isTrackingKey kv.1)
    let cq := urlencodeDoseq clean
    urlunparse ⟨p.scheme, p.netloc, p.path, p.params, cq, p.fragment⟩

example : remove_tracking_params "https://x.com/?a=" = "https://x.com/" := by decide

example :
    remove_tracking_params "https://x.com/p?utm_source=a&q=1" = "https://x.com/p?q=1" := by
  decide

/-! ## tldextract model -/

/-- Result of `tldextract.extract`. -/
structure TldParts where
  subdomain : String
  domain : String
  suffix : String
deriving DecidableEq

/-- First index at which `//` starts. -/
def findDoubleSlashAux : List Char → Nat → Option Nat
  | '/' :: '/' :: _, i => some i
  | _ :: rest, i => findDoubleSlashAux rest (i + 1)
  | [], _ => Option.none

/-- Model of tldextract `_schemeless_url`: drop a leading `//`, or drop
`scheme://` when the prefix before `://` is a valid scheme. -/
def schemelessUrl (l : List Char) : List Char :=
  match findDoubleSlashAux l 0 with
  | some 0 => l.drop 2
  | some d =>
    if decide (2 ≤ d) && (l.get? (d - 1) = some ':') && (l.take (d - 1)).all isSchemeChar
    then l.drop (d + 2)
    else l
  | _ => l

/-- Model of tldextract `lenient_netloc`: strip the scheme, keep the text
before the first `/`, `?`, `#`, drop user info before the last `@` and
the port after the first `:`, strip whitespace and trailing dots. -/
def lenientNetloc (l : List Char) : List Char :=
  let h0 := (((schemelessUrl l).takeWhile (fun c => !(c = '/'))).takeWhile
    (fun c => !(c = '?'))).takeWhile (fun c => !(c = '#'))
  let h1 := ((h0.reverse.takeWhile (fun c => !(c = '@'))).reverse).takeWhile
    (fun c => !(c = ':'))
  let h2 := (h1.dropWhile isSpaceChar).reverse.dropWhile isSpaceChar
  (h2.dropWhile (fun c => c = '.')).reverse

/-- The fragment of the public-suffix list embedded in this model:
the suffixes relevant to the domains this repository handles.  Models
the full public-suffix list that `tldextract` ships. -/
def pslSuffixes : List (List String) :=
  [["com"], ["org"], ["net"], ["io"], ["co"], ["ai"], ["dev"], ["app"],
   ["edu"], ["gov"], ["mil"], ["info"], ["biz"], ["me"], ["tv"], ["xyz"],
   ["us"], ["uk"], ["de"], ["fr"], ["nl"], ["jp"], ["au"], ["in"],
   ["co", "uk"], ["org", "uk"], ["ac", "uk"], ["gov", "uk"],
   ["com", "au"], ["co", "jp"], ["co", "in"]]

/-- Length (in labels) of the longest known public suffix at the end of
the label list (matching is case-insensitive). -/
def suffixLen (labels : List String) : Nat :=
  let low := labels.map strLower
  if decide (2 ≤ low.length) && pslSuffixes.contains (low.drop (low.length - 2)) then 2
  else if decide (1 ≤ low.length) && pslSuffixes.contains (low.drop (low.length - 1)) then 1
  else 0

/-- Model of `tldextract.extract`: split the lenient netloc on dots and
take the longest known public suffix; the label before it is the domain
and the rest is the subdomain.  Like the library, this is total and
never raises. -/
def tldx (url : String) : TldParts :=
  let labels := (splitOnChar '.' (lenientNetloc url.data)).map (fun w => (⟨w⟩ : String))
  let n := labels.length
  let k := suffixLen labels
  let sfx := String.intercalate "." (labels.drop (n - k))
  let dom := if k < n then (labels.get? (n - k - 1)).getD "" else ""
  let sub := String.intercalate "." (labels.take (n - k - 1))
  ⟨sub, dom, sfx⟩

example : tldx "https://acme.io" = ⟨"", "acme", "io"⟩ := by decide

example : tldx "not-a-url" = ⟨"", "not-a-url", ""⟩ := by decide

example : tldx "https://a.b.example.co.uk/x" = ⟨"a.b", "example", "co.uk"⟩ := by decide

/-! ## validators.url model and URLHandler.validate_url -/

/-- Host part of a netloc: drop user info (before the last `@`) and the
port (after the first `:`). -/
def hostOfNetloc (l : List Char) : List Char :=
  ((l.reverse.takeWhile (fun c => !(c = '@'))).reverse).takeWhile (fun c => !(c = ':'))

/-- Structural hostname check: at least two labels, each non-empty and
made of alphanumerics or `-`, with an alphabetic final label of length
at least two. -/
def hostLabelsOk (host : List Char) : Bool :=
  let labels := splitOnChar '.' host
  decide (2 ≤ labels.length) &&
    labels.all (fun lb => !lb.isEmpty && lb.all (fun c => c.isAlphanum || c = '-')) &&
    (match labels.getLast? with
     | some t => decide (2 ≤ t.length) && t.all (fun c => c.isAlpha)
     | _ => false)

/-- Model of the third-party `validators.url` check, restricted to the
scheme-plus-hostname URLs this repository feeds it: a recognized scheme
and a structurally valid dotted hostname. -/
def validatorsUrl (s : String) : Bool :=
  let p := urlparse s
  let host := hostOfNetloc p.netloc.data
  ["http", "https", "ftp", "ftps"].contains p.scheme &&
    !host.isEmpty && hostLabelsOk host

/-- `URLHandler.validate_url`: empty and format-invalid URLs fail, the
scheme must be `http`/`https` with a non-empty netloc, the domain must
have a known public suffix, and `example`/`test`/`localhost` domains are
rejected. -/
def validate_url (url : String) : Bool :=
  if url.data.isEmpty then false
  else if !validatorsUrl url then false
  else
    let p := urlparse url
    if !(!p.scheme.data.isEmpty && !p.netloc.data.isEmpty) then false
    else if !(p.scheme == "http" || p.scheme == "https") then false
    else
      let e := tldx url
      if e.suffix.data.isEmpty then false
      else if ["example", "test", "localhost"].contains e.domain then false
      else true

example : validate_url "https://example.com" = false := by decide

example : validate_url "https://acme.io" = true := by decide

/-- `URLHandler.extract_domain`: build `domain.suffix`, prepend a
non-`www` subdomain, and lower-case.  The `except` branch of the source
is unreachable because `tldextract.extract` (and its model `tldx`) is
total, so the result is always `some`. -/
def extract_domain (url : String) : Option String :=
  let e := tldx url
  let d := e.domain ++ "." ++ e.suffix
  let d2 :=
    if !e.subdomain.data.isEmpty && !(e.subdomain == "www") then
      e.subdomain ++ "." ++ d
    else d
  some (strLower d2)

example : extract_domain "https://acme.io" = some "acme.io" := by decide

example : extract_domain "not-a-url" = some "not-a-url." := by decide

/-! ## BaseScraper.validate_data (src/app/scraper/base_scraper.py,
lines 192-216)

The default `required_fields` configuration: `SCRAPING_CONFIG` in
src/app/config.py has no `required_fields` key, so
`SCRAPING_CONFIG.get("required_fields", ["name", "website"])` yields the
default. -/

/-- The default required-fields list used by `validate_data`. -/
def requiredFields : List String := ["name", "website"]

/-- The string content of a value, `none` when the value is not a string
(passing a non-string to a regex or to `validate_url` raises in
Python). -/
def fieldAsStr : PyVal → Option String
  | .str s => some s
  | _ => Option.none

/-- Phone-format step of `validate_data`. -/
def checkPhone (d : List (String × PyVal)) : Option Bool :=
  let v := pyGet d "phone"
  if truthy v then
    match fieldAsStr v with
    | some s => if !validate_phone_format s then some false else some true
    | _ => Option.none
  else some true

/-- Website step of `validate_data` (re-validates with `validate_url`). -/
def checkWebsite (d : List (String × PyVal)) : Option Bool :=
  let v := pyGet d "website"
  if truthy v then
    match fieldAsStr v with
    | some s => if !validate_url s then some false else checkPhone d
    | _ => Option.none
  else checkPhone d

/-- E-mail step of `validate_data` (runs when the key is present and
truthy). -/
def checkEmail (d : List (String × PyVal)) : Option Bool :=
  let v := pyGet d "email"
  if truthy v then
    match fieldAsStr v with
    | some s => if !validate_email_format s then some false else checkWebsite d
    | _ => Option.none
  else checkWebsite d

/-- `BaseScraper.validate_data`: an empty record fails; every required
field must be truthy; then the e-mail, website and phone field formats
are checked in that order.  `none` models a raised exception (non-string
field values reaching a format check). -/
def validate_data (d : List (String × PyVal)) : Option Bool :=
  if d.isEmpty then some false
  else if !(requiredFields.all fun f => truthy (pyGet d f)) then some false
  else checkEmail d

example :
    validate_data [("name", .str "Acme"), ("website", .str "https://acme.io")] =
      some true := by decide

example :
    validate_data [("name", .str "Acme"), ("website", .str "https://acme.io"),
      ("email", .str "")] = some true := by decide

example : validate_email_format "" = false := by decide

example : validate_data [("name", .str "Acme")] = some false := by decide

/-! ## CacheHandler (src/app/scraper/utils.py, lines 386-446)

The cache directory is modelled as an association list from cache key to
stored JSON value; time is modelled as integer seconds (the stored
`datetime.now().isoformat()` string round-trips exactly through
`datetime.fromisoformat`, so storing the instant itself is faithful). -/

/-- The on-disk cache: one stored JSON value per key. -/
def CacheStore : Type := List (String × PyVal)

/-- Lookup in the cache directory. -/
def cacheLookup (store : CacheStore) (key : String) : Option PyVal :=
  match store with
  | [] => Option.none
  | (k2, v) :: rest => if k2 = key then some v else cacheLookup rest key

/-- `CacheHandler.save_to_cache`: overwrite the entry for `key` with a
dict holding the timestamp, the payload under `data`, and the metadata
dict. -/
def save_to_cache (store : CacheStore) (key : String) (payload : PyVal)
    (now : Int) : CacheStore :=
  (key, PyVal.dict
    [("timestamp", .int now),
     ("data", payload),
     ("metadata", .dict
       [("version", .str "1.0"), ("source", .str "scraper"),
        ("cache_date", .str "")])]) ::
    (store.filter (fun kv => !(kv.1 = key)))

/-- `CacheHandler.load_from_cache`: `none` when the key is absent, the
stored structure is not a dict containing `timestamp`, `data` and
`metadata`, the timestamp does not parse, or the age in seconds exceeds
`max_age_hours * 3600`; otherwise the stored payload. -/
def load_from_cache (store : CacheStore) (key : String) (max_age_hours : Int)
    (now : Int) : Option PyVal :=
  match cacheLookup store key with
  | Option.none => Option.none
  | some cached =>
    match cached with
    | .dict d =>
      match lookupKey d "timestamp", lookupKey d "data", lookupKey d "metadata" with
      | some ts, some payload, some _ =>
        match ts with
        | .int t => if now - t > max_age_hours * 3600 then Option.none else some payload
        | _ => Option.none
      | _, _, _ => Option.none
    | _ => Option.none

/-! ## Lead scoring (src/app/services/enrichment.py, lines 17-57) -/

/-- Class `[a-zA-Z0-9_.+-]` (local part of the enrichment e-mail regex). -/
def isEnrichLocalChar (c : Char) : Bool :=
  c.isAlphanum || c = '_' || c = '.' || c = '+' || c = '-'

/-- Class `[a-zA-Z0-9-]` (first domain label of the enrichment regex). -/
def isEnrichHostChar (c : Char) : Bool :=
  c.isAlphanum || c = '-'

/-- Class `[a-zA-Z0-9-.]` (tail of the enrichment regex). -/
def isEnrichTailChar (c : Char) : Bool :=
  c.isAlphanum || c = '-' || c = '.'

/-- `is_valid_email` in enrichment.py: empty strings fail, otherwise the
anchored regex `^[a-zA-Z0-9_.+-]+@[a-zA-Z0-9-]+\.[a-zA-Z0-9-.]+$`. -/
def is_valid_email (email : String) : Bool :=
  let l := email.data
  if l.isEmpty then false
  else
    let a := l.takeWhile isEnrichLocalChar
    match l.drop a.length with
    | '@' :: rest =>
      let h := rest.takeWhile isEnrichHostChar
      !a.isEmpty && !h.isEmpty &&
        (match rest.drop h.length with
         | '.' :: tail => !tail.isEmpty && tail.all isEnrichTailChar
         | _ => false)
    | _ => false

example : is_valid_email "john@acme.io" = true := by decide

example : is_valid_email "john@acme" = false := by decide

example : is_valid_email "" = false := by decide

/-- `is_valid_email` applied to an arbitrary Python value, as
`score_lead` does: the leading `if not email: return False` guard
handles every falsy value (`None`, `0`, `False`, empty containers)
without raising; a truthy string is regex-checked; only a truthy
non-string value reaches `re.match` and raises (`none`). -/
def is_valid_email_py (email : PyVal) : Option Bool :=
  if !truthy email then some false
  else
    match email with
    | .str s => some (is_valid_email s)
    | _ => Option.none

example : is_valid_email_py PyVal.none = some false := by decide

example : is_valid_email_py (PyVal.int 0) = some false := by decide

example : is_valid_email_py (PyVal.int 5) = Option.none := by decide

/-- `score_lead`: +30 for a valid e-mail, +20 for a truthy `company`,
+25 for a truthy `linkedin`, +25 for a truthy `website`.  `none` models
the `TypeError` raised when the `email` value is truthy and not a
string; falsy e-mail values are absorbed by the guard in
`is_valid_email` and contribute 0. -/
def score_lead (lead : List (String × PyVal)) : Option Int :=
  match is_valid_email_py (pyGetD lead "email" (.str "")) with
  | some ev =>
    some ((if ev then 30 else 0) +
      (if truthy (pyGetD lead "company" .none) then 20 else 0) +
      (if truthy (pyGetD lead "linkedin" .none) then 25 else 0) +
      (if truthy (pyGetD lead "website" .none) then 25 else 0))
  | _ => Option.none

example :
    score_lead [("email", .str "john@acme.io"), ("company", .str "Acme"),
      ("linkedin", .str "x"), ("website", .str "y")] = some 100 := by decide

example : score_lead [] = some 0 := by decide

/-! ## ContactExtractor.extract_emails (src/app/scraper/utils.py,
lines 123-170)

The e-mail pattern from `SCRAPING_PATTERNS` in src/app/config.py is
`[a-zA-Z0-9._%+-]+@[a-zA-Z0-9.-]+\.[a-zA-Z]{2,}`; `re.findall` scans the
lower-cased text and returns leftmost non-overlapping matches with
Python backtracking semantics. -/

/-- Backtracking search of the `\.[a-zA-Z]{2,}` split point inside the
maximal `[a-zA-Z0-9.-]` run `r`: try the split index from high to low
(the greedy `[a-zA-Z0-9.-]+` prefers longer prefixes) and take the
maximal letter run after the dot.  Returns the matched domain text and
the number of characters of `r` consumed. -/
def domSearchAux (r : List Char) : Nat → Option (List Char × Nat)
  | 0 => Option.none
  | i + 1 =>
    let lets := (r.drop (i + 2)).takeWhile (fun c => c.isAlpha)
    if r.get? (i + 1) = some '.' ∧ 2 ≤ lets.length then
      some (r.take (i + 1) ++ '.' :: lets, i + 2 + lets.length)
    else domSearchAux r i

/-- Match the e-mail regex at the head of `l`: a maximal non-empty
`[a-zA-Z0-9._%+-]` run, a literal `@`, and a domain found by
`domSearchAux` inside the maximal `[a-zA-Z0-9.-]` run.  Returns the
match and the remaining text. -/
def matchEmailAt (l : List Char) : Option (List Char × List Char) :=
  let a := l.takeWhile isEmailLocalChar
  if a.isEmpty then Option.none
  else
    match l.drop a.length with
    | '@' :: r0 =>
      let r := r0.takeWhile isEmailDomChar
      match domSearchAux r (r.length - 1) with
      | some (dom, used) => some (a ++ '@' :: dom, r0.drop used)
      | _ => Option.none
    | _ => Option.none

/-- `re.findall` for the e-mail pattern: try to match at every position,
left to right, continuing after each match (fuel-driven; one unit of
fuel per character suffices because every step consumes at least one
character). -/
def findEmailsF : Nat → List Char → List (List Char)
  | 0, _ => []
  | _ + 1, [] => []
  | fuel + 1, c :: cs =>
    match matchEmailAt (c :: cs) with
    | some (m, rest) => m :: findEmailsF fuel rest
    | _ => findEmailsF fuel cs

/-- Python `str.strip()` (whitespace strip). -/
def stripWs (l : List Char) : List Char :=
  ((l.dropWhile isSpaceChar).reverse.dropWhile isSpaceChar).reverse

/-- Model of the third-party `email_validator.validate_email` syntax
check used by `ContactExtractor.validate_email`: a non-empty local part
of e-mail characters, one `@`, and a structurally valid dotted domain. -/
def emailLibOk (l : List Char) : Bool :=
  let a := l.takeWhile (fun c => !(c = '@'))
  match l.drop a.length with
  | '@' :: dom => !a.isEmpty && a.all isEmailLocalChar && hostLabelsOk dom
  | _ => false

/-- `ContactExtractor.validate_email`: require an `@`, the library
syntax check, and a lower-cased domain that is neither reserved-invalid
nor a known disposable service. -/
def validate_email (email : String) : Bool :=
  if email.data.isEmpty || !(email.data.contains '@') then false
  else if !emailLibOk email.data then false
  else
    let domain : String := ⟨pyLower (afterFirstAt email.data)⟩
    if ["example.com", "test.com", "domain.com", "localhost",
        "example.org", "test.org"].contains domain then false
    else if ["tempmail.com", "throwaway.com"].contains domain then false
    else true

/-- `ContactExtractor.extract_emails`: find all regex matches in the
lower-cased text, strip each, keep the validated ones, and collect them
into a set (modelled as a first-occurrence-ordered duplicate-free
list). -/
def extract_emails (text : String) : List String :=
  if text.data.isEmpty then []
  else
    let low := pyLower text.data
    (findEmailsF low.length low).foldl (fun acc m =>
      let e : String := ⟨stripWs m⟩
      if validate_email e && !acc.contains e then acc ++ [e] else acc) []

example : extract_emails "Contact US at John@Acme.io now" = ["john@acme.io"] := by decide

example : extract_emails "mail a@example.com please" = [] := by decide

example : extract_emails "x a@acme.io y A@ACME.IO z" = ["a@acme.io"] := by decide

example :
    extract_emails "john.doe@mail.example.co.uk" =
      ["john.doe@mail.example.co.uk"] := by decide

/-! ## Lower-casing lemmas (shared) -/

theorem charOfNat_toNat {n : Nat} (h : n < 55296) : (Char.ofNat n).toNat = n := by
  simp [Char.ofNat, Char.toNat]
  split
  · rfl
  · next hh => exact absurd (Or.inl h) hh

theorem lowerChar_not_upper (c : Char) :
    ¬(65 ≤ ((lowerChar c).2).toNat ∧ ((lowerChar c).2).toNat ≤ 90) := by
  unfold lowerChar
  split
  · next h =>
    have hv : (Char.ofNat (c.toNat + 32)).toNat = c.toNat + 32 :=
      charOfNat_toNat (by omega)
    simp only [hv]
    omega
  · next h => simpa using h

theorem lowerChar_fix {c : Char} (h : ¬(65 ≤ c.toNat ∧ c.toNat ≤ 90)) :
    (lowerChar c).2 = c := by
  unfold lowerChar
  rw [if_neg h]

theorem lowerChar_idem (c : Char) :
    (lowerChar ((lowerChar c).2)).2 = (lowerChar c).2 :=
  lowerChar_fix (lowerChar_not_upper c)

theorem pyLower_mem_fix {l : List Char} {c : Char} (h : c ∈ pyLower l) :
    (lowerChar c).2 = c := by
  unfold pyLower at h
  obtain ⟨c0, _, rfl⟩ := List.mem_map.mp h
  exact lowerChar_idem c0

theorem strLower_idem (s : String) : strLower (strLower s) = strLower s := by
  unfold strLower pyLower
  apply congrArg String.mk
  rw [List.map_map]
  exact List.map_congr_left (fun c _ => lowerChar_idem c)

/-! ## Claim theorems -/

/-- C9: every value in a record returned by `clean_data` is truthy — a
field whose cleaned value is falsy (including the integer 0) is deleted;
in particular a record with `employees == 0` leaves cleaning without the
`employees` key. -/
theorem clean_data_values_truthy :
    (∀ (d : List (String × PyVal)) (k : String) (v : PyVal),
      (k, v) ∈ clean_data d → truthy v = true) ∧
    clean_data [("employees", PyVal.int 0)] = [] := by
  constructor
  · intro d k v h
    induction d with
    | nil => simp [clean_data] at h
    | cons kv rest ih =>
      obtain ⟨k2, v2⟩ := kv
      by_cases ht : truthy (cleanValue v2)
      · simp only [clean_data, ht, if_true, List.mem_cons] at h
        rcases h with h | h
        · injection h with h1 h2
          rw [h2]
          exact ht
        · exact ih h
      · simp only [clean_data, ht, if_false] at h
        exact ih h
  · simp [clean_data, cleanValue, truthy]

/-- Witness for C9 at a concrete record. -/
theorem clean_data_values_truthy_witness : truthy (PyVal.str "x") = true :=
  clean_data_values_truthy.1 [("a", PyVal.str "x")] "a" (PyVal.str "x")
    (by simp [clean_data, cleanValue, truthy, show clean_text "x" = "x" by decide])

/-- C1, counterexample: `clean_data` does *not* drop list elements whose
normalized result is falsy — the element `"!"` is truthy before
cleaning, so it is kept even though `clean_text "!" = ""` is falsy; the
transformation claimed by the spec would instead produce an empty
list. -/
theorem clean_data_list_counterexample :
    clean_data [("k", PyVal.list [PyVal.str "!"])] =
      [("k", PyVal.list [PyVal.str ""])] ∧
    truthy (PyVal.str "") = false ∧
    ([PyVal.str "!"].map (fun v => PyVal.str (clean_text (pyStr v)))).filter truthy
      = [] := by
  refine ⟨?_, by decide, ?_⟩
  · have h : clean_text "!" = "" := by decide
    simp [clean_data, cleanValue, cleanList, truthy, pyStr, h]
  · have h : clean_text "!" = "" := by decide
    simp [pyStr, h, truthy]

/-- C1, amended: a sequence field is transformed by first dropping the
elements that are falsy *before* cleaning and then applying
`clean_text(str(item))` to each kept element; falsy cleaned results are
retained. -/
theorem cleanList_eq (l : List PyVal) :
    cleanList l = (l.filter truthy).map (fun v => PyVal.str (clean_text (pyStr v))) := by
  induction l with
  | nil => simp [cleanList]
  | cons v vs ih =>
    by_cases h : truthy v
    · simp only [cleanList, h, if_true, List.filter_cons_of_pos h, List.map_cons]
      rw [ih]
    · simp only [cleanList, h, if_false]
      rw [ih, List.filter_cons]
      simp [h]

theorem cleanValue_list_amended (l : List PyVal) :
    cleanValue (PyVal.list l) =
      PyVal.list ((l.filter truthy).map (fun v => PyVal.str (clean_text (pyStr v)))) := by
  rw [cleanValue, cleanList_eq]

/-- C5: the four specified evaluations of `validate_url`:
`example.com` is rejected (suspicious domain), `not-a-url` and the empty
string are rejected, `acme.io` is accepted. -/
theorem validate_url_cases :
    validate_url "https://example.com" = false ∧
    validate_url "not-a-url" = false ∧
    validate_url "" = false ∧
    validate_url "https://acme.io" = true :=
  ⟨by decide, by decide, by decide, by decide⟩

/-- C7, counterexample: `extract_domain` does not return `None` on
unparseable input; `tldextract` is total, so inputs with no registrable
domain produce degenerate strings instead. -/
theorem extract_domain_counterexample :
    extract_domain "not-a-url" = some "not-a-url." ∧
    extract_domain "" = some "." :=
  ⟨by decide, by decide⟩

/-- C7, amended: `extract_domain` never returns `None` (the underlying
extraction is total, so the `except` branch is unreachable); it returns
the registrable domain plus any non-`www` subdomain, lower-cased — on
unparseable input this is a degenerate string rather than `None`. -/
theorem extract_domain_amended (url : String) :
    ∃ s, extract_domain url = some s ∧ strLower s = s := by
  refine ⟨_, rfl, strLower_idem _⟩

/-- C2, counterexample: a record with all required fields whose `email`
field is the empty string is accepted by `validate_data` even though the
empty string fails the e-mail format check — the check is skipped for
falsy e-mail values. -/
theorem validate_data_email_counterexample :
    validate_data [("name", PyVal.str "Acme"), ("website", PyVal.str "https://acme.io"),
      ("email", PyVal.str "")] = some true ∧
    validate_email_format "" = false :=
  ⟨by decide, by decide⟩

/-- C2, amended: under the default required fields `name`/`website`, a
record without a truthy `website` always fails; a record whose `email`
field is a *truthy* string failing the format check fails; and a record
with a truthy `name`, a website accepted by `validate_url`, and no
`email` or `phone` key is accepted. -/
theorem validate_data_amended :
    (∀ d : List (String × PyVal),
      truthy (pyGet d "website") = false → validate_data d = some false) ∧
    (∀ (d : List (String × PyVal)) (s : String),
      pyGet d "email" = PyVal.str s → truthy (PyVal.str s) = true →
      validate_email_format s = false → validate_data d = some false) ∧
    validate_data [("name", PyVal.str "Acme"), ("website", PyVal.str "https://acme.io")] =
      some true := by
  refine ⟨?_, ?_, by decide⟩
  · intro d h
    unfold validate_data
    by_cases he : d.isEmpty
    · simp [he]
    · simp [he, requiredFields, h]
  · intro d s he ht hv
    unfold validate_data
    by_cases hemp : d.isEmpty
    · simp [hemp]
    · by_cases hall : requiredFields.all fun f => truthy (pyGet d f)
      · simp only [hemp, hall, Bool.not_true, Bool.false_eq_true, if_false]
        unfold checkEmail
        rw [he]
        simp [fieldAsStr, ht, hv]
      · simp [hemp, hall]

/-- Witness for C2 (amended) at concrete records. -/
theorem validate_data_amended_witness :
    validate_data [("name", PyVal.str "A")] = some false ∧
    validate_data [("name", PyVal.str "A"), ("website", PyVal.str "https://acme.io"),
      ("email", PyVal.str "bad")] = some false :=
  ⟨validate_data_amended.1 [("name", PyVal.str "A")] (by decide),
   validate_data_amended.2.1
     [("name", PyVal.str "A"), ("website", PyVal.str "https://acme.io"),
      ("email", PyVal.str "bad")] "bad" rfl (by decide) (by decide)⟩

/-- C3: reading a key right after writing it returns the stored record
(for a non-negative TTL), and `load_from_cache` returns `none` when the
key is absent, when the stored structure lacks `timestamp`, `data` or
`metadata`, and when the entry is older than `max_age_hours` hours. -/
theorem cache_roundtrip_and_invalidation :
    (∀ (store : CacheStore) (key : String) (payload : PyVal) (now maxAge : Int),
      0 ≤ maxAge →
      load_from_cache (save_to_cache store key payload now) key maxAge now =
        some payload) ∧
    (∀ (store : CacheStore) (key : String) (maxAge now : Int),
      cacheLookup store key = Option.none →
      load_from_cache store key maxAge now = Option.none) ∧
    (∀ (store : CacheStore) (key : String) (d : List (String × PyVal))
      (maxAge now : Int),
      cacheLookup store key = some (PyVal.dict d) →
      (lookupKey d "timestamp" = Option.none ∨ lookupKey d "data" = Option.none ∨
        lookupKey d "metadata" = Option.none) →
      load_from_cache store key maxAge now = Option.none) ∧
    (∀ (store : CacheStore) (key : String) (d : List (String × PyVal)) (t : Int)
      (maxAge now : Int),
      cacheLookup store key = some (PyVal.dict d) →
      lookupKey d "timestamp" = some (PyVal.int t) →
      now - t > maxAge * 3600 →
      load_from_cache store key maxAge now = Option.none) := by
  refine ⟨?_, ?_, ?_, ?_⟩
  · intro store key payload now maxAge hge
    have hl : cacheLookup (save_to_cache store key payload now) key =
        some (PyVal.dict [("timestamp", PyVal.int now), ("data", payload),
          ("metadata", PyVal.dict [("version", PyVal.str "1.0"),
            ("source", PyVal.str "scraper"), ("cache_date", PyVal.str "")])]) := by
      unfold save_to_cache
      simp [cacheLookup]
    have h1 : lookupKey [("timestamp", PyVal.int now), ("data", payload),
        ("metadata", PyVal.dict [("version", PyVal.str "1.0"),
          ("source", PyVal.str "scraper"), ("cache_date", PyVal.str "")])]
        "timestamp" = some (PyVal.int now) := rfl
    have h2 : lookupKey [("timestamp", PyVal.int now), ("data", payload),
        ("metadata", PyVal.dict [("version", PyVal.str "1.0"),
          ("source", PyVal.str "scraper"), ("cache_date", PyVal.str "")])]
        "data" = some payload := rfl
    have h3 : lookupKey [("timestamp", PyVal.int now), ("data", payload),
        ("metadata", PyVal.dict [("version", PyVal.str "1.0"),
          ("source", PyVal.str "scraper"), ("cache_date", PyVal.str "")])]
        "metadata" = some (PyVal.dict [("version", PyVal.str "1.0"),
          ("source", PyVal.str "scraper"), ("cache_date", PyVal.str "")]) := rfl
    unfold load_from_cache
    simp only [hl, h1, h2, h3]
    rw [if_neg (by omega)]
  · intro store key maxAge now h
    unfold load_from_cache
    rw [h]
  · intro store key d maxAge now h hmiss
    unfold load_from_cache
    simp only [h]
    rcases hmiss with hm | hm | hm <;>
      cases h1 : lookupKey d "timestamp" <;> cases h2 : lookupKey d "data" <;>
      cases h3 : lookupKey d "metadata" <;> simp_all
  · intro store key d t maxAge now h ht hage
    unfold load_from_cache
    simp only [h, ht]
    cases h2 : lookupKey d "data" <;> cases h3 : lookupKey d "metadata" <;>
      simp_all

/-- Witness for C3 at concrete stores, keys and times. -/
theorem cache_roundtrip_and_invalidation_witness :
    load_from_cache (save_to_cache [] "k" (PyVal.str "v") 0) "k" 24 0 =
      some (PyVal.str "v") ∧
    load_from_cache [] "k" 24 0 = Option.none ∧
    load_from_cache [("k", PyVal.dict [("data", PyVal.none)])] "k" 24 0 =
      Option.none ∧
    load_from_cache
      [("k", PyVal.dict [("timestamp", PyVal.int 0), ("data", PyVal.none),
        ("metadata", PyVal.dict [])])] "k" 1 4000 = Option.none :=
  ⟨cache_roundtrip_and_invalidation.1 [] "k" (PyVal.str "v") 0 24 (by norm_num),
   cache_roundtrip_and_invalidation.2.1 [] "k" 24 0 rfl,
   cache_roundtrip_and_invalidation.2.2.1 [("k", PyVal.dict [("data", PyVal.none)])]
     "k" [("data", PyVal.none)] 24 0 rfl (Or.inl rfl),
   cache_roundtrip_and_invalidation.2.2.2
     [("k", PyVal.dict [("timestamp", PyVal.int 0), ("data", PyVal.none),
       ("metadata", PyVal.dict [])])]
     "k" [("timestamp", PyVal.int 0), ("data", PyVal.none), ("metadata", PyVal.dict [])]
     0 1 4000 rfl rfl (by norm_num)⟩

/-- C8: whenever the e-mail validity check completes — it does for
every falsy e-mail value (absent key, `None`, empty string, ...) and
for every string; only a truthy non-string e-mail raises — the score is
exactly the weighted sum +30 for a passing e-mail check, +20 company,
+25 LinkedIn, +25 website, and every returned score lies between 0 and
100. -/
theorem score_lead_weighted (lead : List (String × PyVal)) (b : Bool)
    (he : is_valid_email_py (pyGetD lead "email" (PyVal.str "")) = some b) :
    score_lead lead =
      some ((if b then (30 : Int) else 0) +
        (if truthy (pyGetD lead "company" PyVal.none) then 20 else 0) +
        (if truthy (pyGetD lead "linkedin" PyVal.none) then 25 else 0) +
        (if truthy (pyGetD lead "website" PyVal.none) then 25 else 0)) ∧
    (∀ n : Int, score_lead lead = some n → 0 ≤ n ∧ n ≤ 100) := by
  constructor
  · unfold score_lead
    rw [he]
  · intro n hn
    unfold score_lead at hn
    rw [he] at hn
    injection hn with hn
    split_ifs at hn <;> omega

/-- Witness for C8 at concrete leads: a valid string e-mail scores 50
with a company, and a falsy non-string e-mail (`None`) does not raise —
it contributes 0 and the rest still scores 45. -/
theorem score_lead_weighted_witness :
    score_lead [("email", PyVal.str "john@acme.io"), ("company", PyVal.str "Acme")] =
      some 50 ∧
    score_lead [("email", PyVal.none), ("company", PyVal.str "Acme"),
      ("website", PyVal.str "https://acme.io")] = some 45 := by
  have h1 := score_lead_weighted
    [("email", PyVal.str "john@acme.io"), ("company", PyVal.str "Acme")]
    true (by decide)
  have h2 := score_lead_weighted
    [("email", PyVal.none), ("company", PyVal.str "Acme"),
     ("website", PyVal.str "https://acme.io")]
    false (by decide)
  refine ⟨?_, ?_⟩
  · rw [h1.1]
    decide
  · rw [h2.1]
    decide

/-- C6, counterexample: a URL whose only query parameter key `a`
contains no tracking word is still rewritten, because
`parse_qs`/`urlencode` drop the blank-valued parameter `a=`. -/
theorem remove_tracking_counterexample :
    remove_tracking_params "https://x.com/?a=" = "https://x.com/" ∧
    ¬("https://x.com/" = "https://x.com/?a=") ∧
    isTrackingKey "a" = false :=
  ⟨by decide, by decide, by decide⟩

/-- C6, amended: `remove_tracking_params` returns the URL unchanged when
no parsed query key contains a tracking word, *provided* the query
string is already in the canonical form produced by re-encoding its
parsed parameters (in particular no blank-valued or non-canonically
encoded parameters) and the URL round-trips through
`urlparse`/`urlunparse`. -/
theorem remove_tracking_params_amended (url : String)
    (hcanon : urlencodeDoseq (parse_qs (urlparse url).query) = (urlparse url).query)
    (hkeys : ∀ kv ∈ parse_qs (urlparse url).query, isTrackingKey kv.1 = false)
    (hround : urlunparse (urlparse url) = url) :
    remove_tracking_params url = url := by
  unfold remove_tracking_params
  by_cases hq : (urlparse url).query.data.isEmpty
  · simp [hq]
  · simp only [hq, Bool.false_eq_true, if_false]
    have hfilter : (parse_qs (urlparse url).query).filter
        (fun kv => !isTrackingKey kv.1) = parse_qs (urlparse url).query :=
      List.filter_eq_self.mpr (fun kv h => by simp [hkeys kv h])
    rw [hfilter, hcanon]
    have heta : (⟨(urlparse url).scheme, (urlparse url).netloc, (urlparse url).path,
        (urlparse url).params, (urlparse url).query, (urlparse url).fragment⟩ :
        UrlParts) = urlparse url := rfl
    rw [heta, hround]

/-- Witness for C6 (amended) at a concrete canonical URL. -/
theorem remove_tracking_params_amended_witness :
    remove_tracking_params "https://acme.io/p?a=1&b=2" = "https://acme.io/p?a=1&b=2" :=
  remove_tracking_params_amended "https://acme.io/p?a=1&b=2"
    (by decide) (by decide) (by decide)

/-! ## Lemmas for C10: every extracted e-mail is lower-case -/

theorem domSearchAux_subset {r : List Char} :
    ∀ {i : Nat} {dom : List Char} {used : Nat},
      domSearchAux r i = some (dom, used) → ∀ c ∈ dom, c ∈ r := by
  intro i
  induction i with
  | zero => intro dom used h; simp [domSearchAux] at h
  | succ i ih =>
    intro dom used h c hc
    unfold domSearchAux at h
    dsimp only at h
    split at h
    · next hcond =>
      injection h with h1
      injection h1 with hdom hused
      rw [← hdom] at hc
      rcases List.mem_append.mp hc with hc | hc
      · exact List.take_subset _ _ hc
      · rcases List.mem_cons.mp hc with rfl | hc
        · exact List.get?_mem hcond.1
        · exact List.drop_subset _ _ ((List.takeWhile_sublist _).subset hc)
    · exact ih h c hc

theorem matchEmailAt_subset {l m rest : List Char}
    (h : matchEmailAt l = some (m, rest)) :
    (∀ c ∈ m, c ∈ l) ∧ (∀ c ∈ rest, c ∈ l) := by
  unfold matchEmailAt at h
  dsimp only at h
  split at h
  · exact absurd h (by simp)
  · next ha =>
    split at h
    · next c r0 heq =>
      have hr0 : ∀ c2 ∈ r0, c2 ∈ l := by
        intro c2 hc2
        exact List.drop_subset _ _ (heq ▸ List.mem_cons_of_mem _ hc2)
      have hat : '@' ∈ l :=
        List.drop_subset _ _ (heq ▸ List.mem_cons_self _ _)
      split at h
      · next dom used hdom =>
        injection h with h1
        injection h1 with hm hrest
        constructor
        · intro c2 hc2
          rw [← hm] at hc2
          rcases List.mem_append.mp hc2 with hc2 | hc2
          · exact (List.takeWhile_sublist _).subset hc2
          · rcases List.mem_cons.mp hc2 with rfl | hc2
            · exact hat
            · exact hr0 _ ((List.takeWhile_sublist _).subset
                (domSearchAux_subset hdom _ hc2))
        · intro c2 hc2
          rw [← hrest] at hc2
          exact hr0 _ (List.drop_subset _ _ hc2)
      · exact absurd h (by simp)
    · exact absurd h (by simp)

theorem findEmailsF_subset :
    ∀ (fuel : Nat) (l m : List Char), m ∈ findEmailsF fuel l → ∀ c ∈ m, c ∈ l := by
  intro fuel
  induction fuel with
  | zero => intro l m h; simp [findEmailsF] at h
  | succ fuel ih =>
    intro l m h
    cases l with
    | nil => simp [findEmailsF] at h
    | cons c cs =>
      unfold findEmailsF at h
      split at h
      · next m0 rest hmatch =>
        rcases List.mem_cons.mp h with rfl | h
        · exact (matchEmailAt_subset hmatch).1
        · intro c2 hc2
          exact (matchEmailAt_subset hmatch).2 _ (ih rest m h c2 hc2)
      · intro c2 hc2
        exact List.mem_cons_of_mem _ (ih cs m h c2 hc2)

theorem stripWs_subset {m : List Char} : ∀ c ∈ stripWs m, c ∈ m := by
  intro c hc
  unfold stripWs at hc
  rw [List.mem_reverse] at hc
  have hc2 := (List.dropWhile_sublist _).subset hc
  rw [List.mem_reverse] at hc2
  exact (List.dropWhile_sublist _).subset hc2

theorem extract_emails_foldl_shape :
    ∀ (ms : List (List Char)) (acc : List String) (e : String),
      e ∈ ms.foldl (fun acc m =>
        let e2 : String := ⟨stripWs m⟩
        if validate_email e2 && !acc.contains e2 then acc ++ [e2] else acc) acc →
      e ∈ acc ∨ ∃ m ∈ ms, e = (⟨stripWs m⟩ : String) := by
  intro ms
  induction ms with
  | nil => intro acc e h; exact Or.inl h
  | cons m ms ih =>
    intro acc e h
    simp only [List.foldl_cons] at h
    rcases ih _ e h with h2 | ⟨m2, hm2, rfl⟩
    · by_cases hcond : validate_email (⟨stripWs m⟩ : String) &&
        !acc.contains (⟨stripWs m⟩ : String)
      · simp only [hcond, if_true] at h2
        rcases List.mem_append.mp h2 with h3 | h3
        · exact Or.inl h3
        · exact Or.inr ⟨m, List.mem_cons_self _ _, List.mem_singleton.mp h3⟩
      · simp only [hcond, Bool.false_eq_true, if_false] at h2
        exact Or.inl h2
    · exact Or.inr ⟨m2, List.mem_cons_of_mem _ hm2, rfl⟩

/-- C10: every e-mail returned by `extract_emails` is entirely
lower-case (the text is lower-cased before matching and matches are
built from its characters), and consequently the returned set never
contains two addresses differing only in letter case. -/
theorem extract_emails_lowercase :
    (∀ (t e : String), e ∈ extract_emails t → strLower e = e) ∧
    (∀ (t e1 e2 : String), e1 ∈ extract_emails t → e2 ∈ extract_emails t →
      strLower e1 = strLower e2 → e1 = e2) := by
  have part1 : ∀ (t e : String), e ∈ extract_emails t → strLower e = e := by
    intro t e he
    unfold extract_emails at he
    split at he
    · exact absurd he (by simp)
    · rcases extract_emails_foldl_shape _ _ _ he with h | ⟨m, hm, rfl⟩
      · exact absurd h (by simp)
      · have hchars : ∀ c ∈ stripWs m, (lowerChar c).2 = c := by
          intro c hc
          exact pyLower_mem_fix
            (findEmailsF_subset _ _ m hm c (stripWs_subset c hc))
        unfold strLower pyLower
        apply congrArg String.mk
        exact (List.map_congr_left (fun c hc => hchars c hc)).trans
          (List.map_id _)
  refine ⟨part1, ?_⟩
  intro t e1 e2 h1 h2 hlow
  rw [← part1 t e1 h1, ← part1 t e2 h2, hlow]

/-- Witness for C10 at a concrete text whose extraction is non-empty. -/
theorem extract_emails_lowercase_witness :
    strLower "a@acme.io" = "a@acme.io" :=
  extract_emails_lowercase.1 "a@acme.io" "a@acme.io" (by decide)

/-! ## Lemmas for C4: behaviour of clean_text under repetition -/

/-- The shape invariant satisfied by fixed points of the `clean_text`
pipeline: every character is kept by the filter, the only whitespace is
a single space, no run of two equal characters among space, `.`, `,`,
`-`, and neither end is a strippable character. -/
def NoRun (p : Char) (l : List Char) : Prop :=
  List.Chain' (fun a b => ¬(a = p ∧ b = p)) l

def AllowedOk (l : List Char) : Prop :=
  ∀ c ∈ l, isAllowedChar c = true

def SpacesOk (l : List Char) : Prop :=
  ∀ c ∈ l, isSpaceChar c = true → c = ' '

def CleanShape (l : List Char) : Prop :=
  AllowedOk l ∧ SpacesOk l ∧
  NoRun ' ' l ∧ NoRun '.' l ∧ NoRun ',' l ∧ NoRun '-' l ∧
  (∀ c, l.head? = some c → isStripChar c = false) ∧
  (∀ c, l.getLast? = some c → isStripChar c = false)

theorem mem_collapseRuns {p : Char} :
    ∀ {l : List Char} {c : Char}, c ∈ collapseRuns p l → c ∈ l := by
  intro l
  induction l with
  | nil => intro c h; simp [collapseRuns] at h
  | cons a l ih =>
    intro c h
    cases l with
    | nil => simpa [collapseRuns] using h
    | cons b l2 =>
      unfold collapseRuns at h
      split at h
      · exact List.mem_cons_of_mem _ (ih h)
      · rcases List.mem_cons.mp h with rfl | h
        · exact List.mem_cons_self _ _
        · exact List.mem_cons_of_mem _ (ih h)

theorem collapseRuns_head (p : Char) :
    ∀ (l : List Char), (collapseRuns p l).head? = l.head? := by
  intro l
  induction l with
  | nil => rfl
  | cons a l ih =>
    cases l with
    | nil => rfl
    | cons b l2 =>
      unfold collapseRuns
      split
      · next hab =>
        rw [ih]
        simp [hab.1, hab.2]
      · rfl

theorem noRun_collapseRuns (p : Char) :
    ∀ (l : List Char), NoRun p (collapseRuns p l) := by
  intro l
  induction l with
  | nil => exact List.chain'_nil
  | cons a l ih =>
    cases l with
    | nil => simp [collapseRuns, NoRun]
    | cons b l2 =>
      unfold collapseRuns
      split
      · exact ih
      · next hab =>
        rw [NoRun, List.chain'_cons']
        refine ⟨?_, ih⟩
        intro y hy
        rw [collapseRuns_head] at hy
        simp only [List.head?_cons, Option.mem_def, Option.some.injEq] at hy
        intro hcontra
        exact hab ⟨hcontra.1, hy ▸ hcontra.2⟩

theorem noRun_preserved_collapseRuns {q p : Char} :
    ∀ {l : List Char}, NoRun q l → NoRun q (collapseRuns p l) := by
  intro l
  induction l with
  | nil => intro h; exact h
  | cons a l ih =>
    intro h
    cases l with
    | nil => simpa [collapseRuns] using h
    | cons b l2 =>
      rw [NoRun, List.chain'_cons] at h
      unfold collapseRuns
      split
      · exact ih h.2
      · rw [NoRun, List.chain'_cons']
        refine ⟨?_, ih h.2⟩
        intro y hy
        rw [collapseRuns_head] at hy
        simp only [List.head?_cons, Option.mem_def, Option.some.injEq] at hy
        exact hy ▸ h.1

theorem collapseRuns_eq_self {p : Char} :
    ∀ {l : List Char}, NoRun p l → collapseRuns p l = l := by
  intro l
  induction l with
  | nil => intro h; rfl
  | cons a l ih =>
    intro h
    cases l with
    | nil => rfl
    | cons b l2 =>
      rw [NoRun, List.chain'_cons] at h
      unfold collapseRuns
      rw [if_neg h.1, ih h.2]

theorem mem_pyStrip {l : List Char} : ∀ c ∈ pyStrip l, c ∈ l := by
  intro c hc
  unfold pyStrip at hc
  rw [List.mem_reverse] at hc
  have hc2 := (List.dropWhile_sublist _).subset hc
  rw [List.mem_reverse] at hc2
  exact (List.dropWhile_sublist _).subset hc2

theorem head?_dropWhile_not {P : Char → Bool} :
    ∀ {l : List Char} {c : Char}, (l.dropWhile P).head? = some c → P c = false := by
  intro l
  induction l with
  | nil => intro c h; simp at h
  | cons a l ih =>
    intro c h
    rw [List.dropWhile_cons] at h
    split at h
    · exact ih h
    · next hp =>
      simp only [List.head?_cons, Option.some.injEq] at h
      rw [← h]
      exact Bool.not_eq_true _ ▸ (by simpa using hp)

theorem chain'_dropWhile {R : Char → Char → Prop} {P : Char → Bool}
    {l : List Char} (h : List.Chain' R l) : List.Chain' R (l.dropWhile P) := by
  have hsplit := List.takeWhile_append_dropWhile P l
  rw [← hsplit] at h
  exact (List.chain'_append.mp h).2.1

theorem noRun_reverse {p : Char} {l : List Char} (h : NoRun p l) :
    NoRun p l.reverse := by
  rw [NoRun, List.chain'_reverse]
  exact h.imp (fun a b hab => fun hc => hab ⟨hc.2, hc.1⟩)

theorem noRun_pyStrip {p : Char} {l : List Char} (h : NoRun p l) :
    NoRun p (pyStrip l) := by
  unfold pyStrip
  exact noRun_reverse (chain'_dropWhile (noRun_reverse (chain'_dropWhile h)))

theorem pyStrip_head {l : List Char} {c : Char}
    (h : (pyStrip l).head? = some c) : isStripChar c = false := by
  unfold pyStrip at h
  rw [List.head?_reverse] at h
  set M := (l.dropWhile isStripChar).reverse.dropWhile isStripChar with hM
  have hsplit := List.takeWhile_append_dropWhile isStripChar
    (l.dropWhile isStripChar).reverse
  have hMne : M ≠ [] := by
    intro hnil
    rw [hnil] at h
    simp at h
  have hlast : M.getLast? = ((l.dropWhile isStripChar).reverse).getLast? := by
    conv_rhs => rw [← hsplit]
    exact (List.getLast?_append_of_ne_nil _ hMne).symm
  rw [hlast, List.getLast?_reverse] at h
  exact head?_dropWhile_not h

theorem pyStrip_last {l : List Char} {c : Char}
    (h : (pyStrip l).getLast? = some c) : isStripChar c = false := by
  unfold pyStrip at h
  rw [List.getLast?_reverse] at h
  exact head?_dropWhile_not h

theorem dropWhile_eq_self_of_head {P : Char → Bool} {l : List Char}
    (h : ∀ c, l.head? = some c → P c = false) : l.dropWhile P = l := by
  cases l with
  | nil => rfl
  | cons a l =>
    rw [List.dropWhile_cons, if_neg]
    simp [h a rfl]

theorem pyStrip_eq_self {l : List Char}
    (hhead : ∀ c, l.head? = some c → isStripChar c = false)
    (hlast : ∀ c, l.getLast? = some c → isStripChar c = false) :
    pyStrip l = l := by
  unfold pyStrip
  rw [dropWhile_eq_self_of_head hhead]
  rw [dropWhile_eq_self_of_head (fun c hc => hlast c (by rwa [List.head?_reverse] at hc))]
  exact List.reverse_reverse l

theorem stripTags_eq_self :
    ∀ {l : List Char}, (∀ c ∈ l, ¬(c = '<')) → stripTags l false = l := by
  intro l
  induction l with
  | nil => intro h; rfl
  | cons a l ih =>
    intro h
    unfold stripTags
    rw [if_neg (h a (List.mem_cons_self _ _))]
    rw [ih (fun c hc => h c (List.mem_cons_of_mem _ hc))]

theorem is_probably_url_colon {l : List Char} (h : is_probably_url l = true) :
    ':' ∈ l := by
  unfold is_probably_url at h
  split at h
  · split at h
    · simp
    · simp
    · exact absurd h (by simp)
  · exact absurd h (by simp)

theorem pyWordsAux_good :
    ∀ (l acc : List Char), (∀ c ∈ acc, isSpaceChar c = false) →
      ∀ w ∈ pyWordsAux l acc, w ≠ [] ∧ ∀ c ∈ w, isSpaceChar c = false := by
  intro l
  induction l with
  | nil =>
    intro acc hacc w hw
    unfold pyWordsAux at hw
    split at hw
    · simp at hw
    · next hne =>
      rw [List.mem_singleton.mp hw]
      exact ⟨by simpa using hne, hacc⟩
  | cons c cs ih =>
    intro acc hacc w hw
    unfold pyWordsAux at hw
    split at hw
    · split at hw
      · exact ih [] (by simp) w hw
      · next hne =>
        rcases List.mem_cons.mp hw with rfl | hw
        · exact ⟨by simpa using hne, hacc⟩
        · exact ih [] (by simp) w hw
    · next hsp =>
      refine ih (acc ++ [c]) ?_ w hw
      intro c2 hc2
      rcases List.mem_append.mp hc2 with hc2 | hc2
      · exact hacc c2 hc2
      · rw [List.mem_singleton.mp hc2]
        simpa using hsp

theorem pyWordsAux_mem :
    ∀ (l acc : List Char) (w : List Char), w ∈ pyWordsAux l acc →
      ∀ c ∈ w, c ∈ acc ∨ c ∈ l := by
  intro l
  induction l with
  | nil =>
    intro acc w hw c hc
    unfold pyWordsAux at hw
    split at hw
    · simp at hw
    · rw [List.mem_singleton.mp hw] at hc
      exact Or.inl hc
  | cons a cs ih =>
    intro acc w hw c hc
    unfold pyWordsAux at hw
    split at hw
    · split at hw
      · rcases ih [] w hw c hc with h | h
        · simp at h
        · exact Or.inr (List.mem_cons_of_mem _ h)
      · rcases List.mem_cons.mp hw with rfl | hw
        · exact Or.inl hc
        · rcases ih [] w hw c hc with h | h
          · simp at h
          · exact Or.inr (List.mem_cons_of_mem _ h)
    · rcases ih (acc ++ [a]) w hw c hc with h | h
      · rcases List.mem_append.mp h with h | h
        · exact Or.inl h
        · exact Or.inr (List.mem_singleton.mp h ▸ List.mem_cons_self _ _)
      · exact Or.inr (List.mem_cons_of_mem _ h)

theorem mem_joinSp :
    ∀ (ws : List (List Char)) (c : Char), c ∈ joinSp ws →
      c = ' ' ∨ ∃ w ∈ ws, c ∈ w := by
  intro ws
  induction ws with
  | nil => intro c hc; simp [joinSp] at hc
  | cons w ws ih =>
    intro c hc
    cases ws with
    | nil =>
      exact Or.inr ⟨w, List.mem_singleton_self _, by simpa [joinSp] using hc⟩
    | cons x t =>
      unfold joinSp at hc
      rcases List.mem_append.mp hc with hc | hc
      · exact Or.inr ⟨w, List.mem_cons_self _ _, hc⟩
      · rcases List.mem_cons.mp hc with rfl | hc
        · exact Or.inl rfl
        · rcases ih c hc with h | ⟨w2, hw2, hcw⟩
          · exact Or.inl h
          · exact Or.inr ⟨w2, List.mem_cons_of_mem _ hw2, hcw⟩

theorem joinSp_cons {w : List Char} {ws : List (List Char)} (h : ws ≠ []) :
    joinSp (w :: ws) = w ++ ' ' :: joinSp ws := by
  cases ws with
  | nil => exact absurd rfl h
  | cons x t => rfl

theorem joinSp_ne_nil {x : List Char} {t : List (List Char)} (hx : x ≠ []) :
    joinSp (x :: t) ≠ [] := by
  cases t with
  | nil => simpa [joinSp] using hx
  | cons y t2 =>
    rw [joinSp_cons (by simp)]
    simp [hx]

theorem joinSp_head {x : List Char} {t : List (List Char)} (hx : x ≠ []) :
    (joinSp (x :: t)).head? = x.head? := by
  cases t with
  | nil => rfl
  | cons y t2 =>
    rw [joinSp_cons (by simp)]
    cases x with
    | nil => exact absurd rfl hx
    | cons a x2 => rfl

theorem noRun_of_not_mem {p : Char} :
    ∀ {l : List Char}, (∀ c ∈ l, ¬(c = p)) → NoRun p l := by
  intro l
  induction l with
  | nil => intro h; exact List.chain'_nil
  | cons a l ih =>
    intro h
    rw [NoRun, List.chain'_cons']
    refine ⟨?_, ih (fun c hc => h c (List.mem_cons_of_mem _ hc))⟩
    intro y hy hc
    exact h a (List.mem_cons_self _ _) hc.1

theorem noRun_sp_joinSp :
    ∀ (ws : List (List Char)),
      (∀ w ∈ ws, w ≠ [] ∧ ∀ c ∈ w, isSpaceChar c = false) →
      NoRun ' ' (joinSp ws) := by
  intro ws
  induction ws with
  | nil => intro h; exact List.chain'_nil
  | cons w ws ih =>
    intro h
    cases ws with
    | nil =>
      refine noRun_of_not_mem ?_
      intro c hc hcp
      have := (h w (List.mem_singleton_self _)).2 c (by simpa [joinSp] using hc)
      rw [hcp] at this
      simp [isSpaceChar] at this
    | cons x t =>
      rw [joinSp_cons (by simp), NoRun, List.chain'_append]
      have hw := h w (List.mem_cons_self _ _)
      have hx := h x (List.mem_cons_of_mem _ (List.mem_cons_self _ _))
      have hwno : ∀ c ∈ w, ¬(c = ' ') := by
        intro c hc hcp
        have := hw.2 c hc
        rw [hcp] at this
        simp [isSpaceChar] at this
      refine ⟨noRun_of_not_mem hwno, ?_, ?_⟩
      · rw [List.chain'_cons']
        refine ⟨?_, ih (fun w2 hw2 => h w2 (List.mem_cons_of_mem _ hw2))⟩
        intro y hy hc
        rw [joinSp_head hx.1] at hy
        have hxh : y ∈ x := by
          cases x with
          | nil => exact absurd rfl hx.1
          | cons a x2 =>
            simp only [List.head?_cons, Option.mem_def, Option.some.injEq] at hy
            rw [← hy] at hc ⊢
            exact List.mem_cons_self _ _
        have := hx.2 y hxh
        rw [hc.2] at this
        simp [isSpaceChar] at this
      · intro cl hcl cr hcr hc
        exact hwno cl (List.mem_of_mem_getLast? hcl) hc.1

theorem joinSp_last_word :
    ∀ (ws : List (List Char)) (c : Char),
      (∀ w ∈ ws, w ≠ []) → (joinSp ws).getLast? = some c →
      ∃ w ∈ ws, c ∈ w := by
  intro ws
  induction ws with
  | nil => intro c _ h; simp [joinSp] at h
  | cons w ws ih =>
    intro c hne h
    cases ws with
    | nil =>
      exact ⟨w, List.mem_singleton_self _,
        List.mem_of_mem_getLast? (by simpa [joinSp] using h)⟩
    | cons x t =>
      rw [joinSp_cons (by simp)] at h
      have hjoin : joinSp (x :: t) ≠ [] :=
        joinSp_ne_nil (hne x (List.mem_cons_of_mem _ (List.mem_cons_self _ _)))
      rw [List.getLast?_append_of_ne_nil _ (by simp)] at h
      cases hJ : joinSp (x :: t) with
      | nil => exact absurd hJ hjoin
      | cons j J2 =>
        rw [hJ, List.getLast?_cons_cons] at h
        rw [← hJ] at h
        obtain ⟨w2, hw2, hcw⟩ :=
          ih c (fun w2 hw2 => hne w2 (List.mem_cons_of_mem _ hw2)) h
        exact ⟨w2, List.mem_cons_of_mem _ hw2, hcw⟩

theorem pyWordsAux_ne_nil :
    ∀ (l acc : List Char), acc ≠ [] → pyWordsAux l acc ≠ [] := by
  intro l
  induction l with
  | nil =>
    intro acc hacc
    unfold pyWordsAux
    rw [if_neg (by simpa using hacc)]
    simp
  | cons c cs ih =>
    intro acc hacc
    unfold pyWordsAux
    split
    · rw [if_neg (by simpa using hacc)]
      simp
    · exact ih (acc ++ [c]) (by simp)

theorem wjAux :
    ∀ (l acc : List Char),
      (acc ≠ [] ∨ l.head? ≠ some ' ') →
      (∀ c ∈ acc, isSpaceChar c = false) →
      SpacesOk l → NoRun ' ' l →
      l.getLast? ≠ some ' ' →
      joinSp (pyWordsAux l acc) = acc ++ l := by
  intro l
  induction l with
  | nil =>
    intro acc hstart hacc hsp hrun hlast
    unfold pyWordsAux
    by_cases he : acc.isEmpty
    · rw [if_pos he]
      simp only [joinSp, List.append_nil]
      exact (List.isEmpty_iff.mp he).symm
    · rw [if_neg he]
      simp [joinSp]
  | cons c cs ih =>
    intro acc hstart hacc hsp hrun hlast
    unfold pyWordsAux
    by_cases hspc : isSpaceChar c = true
    · have hc : c = ' ' := hsp c (List.mem_cons_self _ _) hspc
      have haccne : acc ≠ [] := by
        rcases hstart with h | h
        · exact h
        · exact absurd (by simp [hc]) h
      rw [if_pos hspc, if_neg (by simpa using haccne)]
      cases cs with
      | nil => exact absurd (by rw [hc]; rfl) hlast
      | cons d cs2 =>
        have hd : ¬(d = ' ') := by
          intro hd
          rw [NoRun, hc, List.chain'_cons] at hrun
          exact hrun.1 ⟨rfl, hd⟩
        have hds : isSpaceChar d = false := by
          by_cases hq : isSpaceChar d = true
          · exact absurd (hsp d (List.mem_cons_of_mem _ (List.mem_cons_self _ _)) hq) hd
          · simpa using hq
        have hcs_ne : pyWordsAux (d :: cs2) [] ≠ [] := by
          unfold pyWordsAux
          rw [if_neg (by simp [hds])]
          exact pyWordsAux_ne_nil cs2 [d] (by simp)
        rw [joinSp_cons hcs_ne]
        rw [ih [] (Or.inr (by simpa using hd)) (by simp)
          (fun c2 hc2 h2 => hsp c2 (List.mem_cons_of_mem _ hc2) h2)
          (by rw [NoRun] at hrun ⊢; exact hrun.tail)
          (by rwa [List.getLast?_cons_cons] at hlast)]
        rw [List.nil_append, hc]
    · rw [if_neg hspc]
      have hlast2 : cs.getLast? ≠ some ' ' := by
        cases cs with
        | nil => simp
        | cons d cs2 => rwa [List.getLast?_cons_cons] at hlast
      rw [ih (acc ++ [c]) (Or.inl (by simp))
        (by
          intro c2 hc2
          rcases List.mem_append.mp hc2 with h2 | h2
          · exact hacc c2 h2
          · rw [List.mem_singleton.mp h2]
            simpa using hspc)
        (fun c2 hc2 h2 => hsp c2 (List.mem_cons_of_mem _ hc2) h2)
        (by rw [NoRun] at hrun ⊢; exact hrun.tail)
        hlast2]
      simp

theorem wj {l : List Char} (hsp : SpacesOk l) (hrun : NoRun ' ' l)
    (hhead : l.head? ≠ some ' ') (hlast : l.getLast? ≠ some ' ') :
    joinSp (pyWords l) = l := by
  unfold pyWords
  rw [wjAux l [] (Or.inr hhead) (by simp) hsp hrun hlast]
  rfl

theorem cleanTextL_eq_self {l : List Char} (h : CleanShape l) : cleanTextL l = l := by
  obtain ⟨hall, hsp, hr_sp, hr_dot, hr_com, hr_dash, hhead, hlast⟩ := h
  have hurl : is_probably_url l = false := by
    by_cases hq : is_probably_url l = true
    · exact absurd (hall ':' (is_probably_url_colon hq)) (by decide)
    · simpa using hq
  have htags : stripTags l false = l :=
    stripTags_eq_self (fun c hc hlt => absurd (hall c hc) (by rw [hlt]; decide))
  have hhead2 : l.head? ≠ some ' ' := fun hq => absurd (hhead ' ' hq) (by decide)
  have hlast2 : l.getLast? ≠ some ' ' := fun hq => absurd (hlast ' ' hq) (by decide)
  unfold cleanTextL
  simp only [hurl, Bool.false_eq_true, if_false, htags]
  rw [wj hsp hr_sp hhead2 hlast2]
  rw [List.filter_eq_self.mpr hall]
  rw [collapseRuns_eq_self hr_dot, collapseRuns_eq_self hr_com,
    collapseRuns_eq_self hr_dash]
  exact pyStrip_eq_self hhead hlast

theorem cleanShape_cleanTextL {l : List Char} (hall : AllowedOk l) :
    CleanShape (cleanTextL l) := by
  have hurl : is_probably_url l = false := by
    by_cases hq : is_probably_url l = true
    · exact absurd (hall ':' (is_probably_url_colon hq)) (by decide)
    · simpa using hq
  have htags : stripTags l false = l :=
    stripTags_eq_self (fun c hc hlt => absurd (hall c hc) (by rw [hlt]; decide))
  have hgood := pyWordsAux_good l [] (by simp)
  have hw_all : AllowedOk (joinSp (pyWords l)) := by
    intro c hc
    rcases mem_joinSp _ c hc with rfl | ⟨w2, hw2, hcw⟩
    · decide
    · rcases pyWordsAux_mem l [] w2 hw2 c hcw with h2 | h2
      · simp at h2
      · exact hall c h2
  have hw_sp : SpacesOk (joinSp (pyWords l)) := by
    intro c hc hspc
    rcases mem_joinSp _ c hc with rfl | ⟨w2, hw2, hcw⟩
    · rfl
    · exact absurd hspc (by simp [(hgood w2 hw2).2 c hcw])
  have hw_runsp : NoRun ' ' (joinSp (pyWords l)) := noRun_sp_joinSp _ hgood
  have hfilter : (joinSp (pyWords l)).filter isAllowedChar = joinSp (pyWords l) :=
    List.filter_eq_self.mpr (fun c hc => hw_all c hc)
  have heq : cleanTextL l = pyStrip (collapseRuns '-' (collapseRuns ','
      (collapseRuns '.' (joinSp (pyWords l))))) := by
    unfold cleanTextL
    simp only [hurl, Bool.false_eq_true, if_false, htags, hfilter]
  rw [heq]
  have hu_all : AllowedOk (collapseRuns '-' (collapseRuns ','
      (collapseRuns '.' (joinSp (pyWords l))))) :=
    fun c hc => hw_all c (mem_collapseRuns (mem_collapseRuns (mem_collapseRuns hc)))
  have hu_sp : SpacesOk (collapseRuns '-' (collapseRuns ','
      (collapseRuns '.' (joinSp (pyWords l))))) :=
    fun c hc => hw_sp c (mem_collapseRuns (mem_collapseRuns (mem_collapseRuns hc)))
  have hu_runsp : NoRun ' ' (collapseRuns '-' (collapseRuns ','
      (collapseRuns '.' (joinSp (pyWords l))))) :=
    noRun_preserved_collapseRuns (noRun_preserved_collapseRuns
      (noRun_preserved_collapseRuns hw_runsp))
  have hu_dot : NoRun '.' (collapseRuns '-' (collapseRuns ','
      (collapseRuns '.' (joinSp (pyWords l))))) :=
    noRun_preserved_collapseRuns (noRun_preserved_collapseRuns
      (noRun_collapseRuns '.' _))
  have hu_com : NoRun ',' (collapseRuns '-' (collapseRuns ','
      (collapseRuns '.' (joinSp (pyWords l))))) :=
    noRun_preserved_collapseRuns (noRun_collapseRuns ',' _)
  have hu_dash : NoRun '-' (collapseRuns '-' (collapseRuns ','
      (collapseRuns '.' (joinSp (pyWords l))))) :=
    noRun_collapseRuns '-' _
  exact ⟨fun c hc => hu_all c (mem_pyStrip c hc),
    fun c hc => hu_sp c (mem_pyStrip c hc),
    noRun_pyStrip hu_runsp, noRun_pyStrip hu_dot,
    noRun_pyStrip hu_com, noRun_pyStrip hu_dash,
    fun c hc => pyStrip_head hc,
    fun c hc => pyStrip_last hc⟩

/-- C4, counterexample: `clean_text` is not idempotent.  On `"a ! b"`
the character filter removes `!` and leaves a double space that only a
second pass collapses. -/
theorem clean_text_not_idempotent :
    clean_text "a ! b" = "a  b" ∧
    clean_text (clean_text "a ! b") = "a b" ∧
    ¬(("a b" : String) = "a  b") :=
  ⟨by decide, by decide, by decide⟩

/-- C4, amended: applying `clean_text` twice reaches a fixed point
(`clean_text ∘ clean_text` is idempotent for every string), and
`clean_text` itself is idempotent on strings whose characters all lie in
the kept class `[\w\s@.,-]`; plain idempotence fails in general because
removing a filtered character can create a new whitespace run. -/
theorem clean_text_idempotent_amended :
    (∀ s : String,
      clean_text (clean_text (clean_text s)) = clean_text (clean_text s)) ∧
    (∀ s : String, (∀ c ∈ s.data, isAllowedChar c = true) →
      clean_text (clean_text s) = clean_text s) := by
  have key : ∀ l : List Char, AllowedOk l →
      cleanTextL (cleanTextL l) = cleanTextL l :=
    fun l h => cleanTextL_eq_self (cleanShape_cleanTextL h)
  have allA : ∀ l : List Char, AllowedOk (cleanTextL l) := by
    intro l c hc
    have hc2 := mem_collapseRuns (mem_collapseRuns (mem_collapseRuns
      (mem_pyStrip c hc)))
    exact (List.mem_filter.mp hc2).2
  have hdata : ∀ (a b : String), a.data = b.data → a = b := by
    intro a b h
    cases a
    cases b
    simp only [String.data] at h
    rw [h]
  have hcd : ∀ s : String, (clean_text s).data = cleanTextL s.data := by
    intro s
    rw [clean_text_eq_mk]
  constructor
  · intro s
    apply hdata
    simp only [hcd]
    exact key (cleanTextL s.data) (allA s.data)
  · intro s hs
    apply hdata
    simp only [hcd]
    exact key s.data hs

/-- Witness for C4 (amended) at a concrete all-allowed string. -/
theorem clean_text_idempotent_amended_witness :
    clean_text (clean_text "ab cd") = clean_text "ab cd" :=
  clean_text_idempotent_amended.2 "ab cd" (by decide)
